import Mathlib

/-!
Shallow embedding of the read-path and fragment-store code of the bendo
repository (`server/item.go` and `fragment/fragment.go`), together with
proofs about the embedded operations.

Go machine integers (`int64`, `int`) are modelled as `Int` (none of the
verified code paths can overflow 64 bits on the inputs considered, and no
wrap-around arithmetic occurs in the source), byte streams as `List Nat`,
wall-clock instants as `Nat` (seconds), and Go `error` values as an
inductive `Err` type.  Effectful collaborators (the blob cache, the items
store, `io.Copy`) enter the model as explicit environment records holding
the results the collaborator returned to the code under verification.
-/

namespace Bendo

/-- Model of Go `error` values that flow through `server/item.go`:
`items.ErrNoStore`, `items.ErrDeleted`, `items.NoBlobError`, the
`fmt.Errorf("cache length mismatch: ...")` value made in
`copyBlobIntoCache`, the two seek errors, and an opaque catch-all. -/
inductive Err where
  | noStore
  | deleted
  | noBlob
  | lengthMismatch (n expected : Int)
  | invalidPos
  | whence
  | other (msg : String)
deriving DecidableEq, Repr

/-! ## Range adapter (`readseekcloser`, server/item.go lines 462-514)

`NewReadSeekCloser` wraps a `store.ReadAtCloser` plus a size.  The
underlying reader-at is modelled by its byte contents; `ReadAt(p, off)`
returns the bytes of the stream starting at `off`, at most `len(p)` of
them, and reports end-of-stream (`io.EOF`) exactly when fewer than
`len(p)` bytes were available. -/

/-- Model of `ReadAt` on a byte stream: given a buffer size `m` and an
offset, return the bytes delivered and whether `io.EOF` was reported. -/
def ReadAt (content : List Nat) (m : Nat) (off : Nat) : List Nat × Bool :=
  ((content.drop off).take m, decide ((content.drop off).length < m))

/-- The `readseekcloser` struct: underlying reader-at contents, current
offset, declared size. -/
structure readseekcloser where
  content : List Nat
  off : Int
  size : Int
deriving DecidableEq, Repr

/-- `readseekcloser.Read` (item.go lines 478-487): `ReadAt(p, r.off)`,
advance `off` by the bytes returned, and clear an `io.EOF` error when
`n > 0`.  Returns (bytes, eofError, new state). -/
def readseekcloser.Read (r : readseekcloser) (m : Nat) :
    List Nat × Bool × readseekcloser :=
  let res := ReadAt r.content m r.off.toNat
  let n := res.1.length
  let err := res.2 && decide (n = 0)
  (res.1, err, { r with off := r.off + n })

/-- Absolute-offset part of `Seek`: reject negative positions, clamp past
the end, set the offset.  Returns the seek result and the new state (the
state is unchanged on error). -/
def readseekcloser.seekAbs (r : readseekcloser) (a : Int) :
    Except Err Int × readseekcloser :=
  if a < 0 then (.error .invalidPos, r)
  else
    let a' := if a > r.size then r.size else a
    (.ok a', { r with off := a' })

/-- `readseekcloser.Seek` (item.go lines 494-514): whence 0 = start,
1 = current, 2 = end; anything else is `ErrWhence`. -/
def readseekcloser.Seek (r : readseekcloser) (offset : Int) (whence : Nat) :
    Except Err Int × readseekcloser :=
  if whence = 0 then r.seekAbs offset
  else if whence = 1 then r.seekAbs (r.off + offset)
  else if whence = 2 then r.seekAbs (r.size + offset)
  else (.error .whence, r)

/-! ## Error ledger (`errorlist`, server/item.go lines 289-343) -/

/-- One entry of the error ledger. -/
structure errorentry where
  key : String
  err : Err
  expires : Nat
deriving DecidableEq, Repr

/-- `errorlist.add` (item.go lines 306-314): append an entry expiring 30
seconds from `now`. -/
def errorlistAdd (e : List errorentry) (key : String) (err : Err)
    (now : Nat) : List errorentry :=
  e ++ [⟨key, err, now + 30⟩]

/-- The backward scan of `errorlist.find` (item.go lines 324-335), phrased
over the reversed list (newest entry first).  `Sum.inl r` means a match
with stored error `r` was found (no truncation); `Sum.inr k` means no
match and `k` is the number of newest entries that were examined and kept
(the loop broke at the first expired entry, or ran off the front). -/
def scanRev (now : Nat) (key : String) : List errorentry → Err ⊕ Nat
  | [] => .inr 0
  | x :: rest =>
    if x.expires < now then .inr 0
    else if x.key = key then .inl x.err
    else
      match scanRev now key rest with
      | .inl r => .inl r
      | .inr k => .inr (k + 1)

/-- `errorlist.find` (item.go lines 318-343): scan from newest to oldest;
return the most recent unexpired match, or `none`; when the scan stops at
an expired entry without a match, drop everything up to and including that
entry.  Returns (result, new list). -/
def errorlistFind (e : List errorentry) (now : Nat) (key : String) :
    Option Err × List errorentry :=
  match scanRev now key e.reverse with
  | .inl r => (some r, e)
  | .inr k => (none, e.drop (e.length - k))

/-- The list is in nondecreasing order of expiration times. -/
def expOrdered (e : List errorentry) : Prop :=
  e.Pairwise (fun a b => a.expires ≤ b.expires)

/-! ## Read coordinator (`findContent`, server/item.go lines 345-404)

The coordinator's effectful collaborators are modelled by an environment
record carrying the answers each collaborator gives for the one key the
call is about: the cache lookup, the `useTape` flag, the blob's declared
size, the error-ledger lookup, the cache's `MaxSize`, and the direct
slow-storage open used on the large-bypass path. -/

/-- `ContentStatus` (item.go lines 280-287). -/
inductive ContentStatus where
  | unknown
  | cached
  | large
  | waiting
deriving DecidableEq, Repr

/-- Where the reader of a `contentSource` was sourced from (`nothing` when
the source carries no reader, as in the Waiting outcome). -/
inductive RSource where
  | nothing
  | cache (bytes : List Nat)
  | tape (bytes : List Nat)
deriving DecidableEq, Repr

/-- The `contentSource` struct (item.go lines 272-278); the done channel
is modelled by the flag `hasChan`. -/
structure contentSource where
  status : ContentStatus
  r : RSource
  size : Int
  hasChan : Bool
deriving DecidableEq, Repr

/-- Environment of one `findContent` call. `cacheGet` is the result of
`s.Cache.Get(key)` (`none` = miss), `ledgerFind` the result of
`s.errorledger.find(key)`, `tapeBlob` the result of `s.Items.Blob`. -/
structure FCEnv where
  cacheGet : Except Err (Option (List Nat × Int))
  useTape : Bool
  blobSize : Int
  ledgerFind : Option Err
  cacheMaxSize : Int
  tapeBlob : Except Err (List Nat)
deriving Repr

/-- Result of `findContent` plus whether the single-flight populate was
dispatched (`s.tapeinflight.DoChan` with the `copyBlobIntoCache` body) —
the only path by which this call causes a cache write. -/
structure FCResult where
  res : Except Err contentSource
  startedPopulate : Bool
deriving Repr

/-- `findContent` (item.go lines 348-404). Go's `/` on int64 truncates
toward zero, hence `Int.tdiv`. -/
def findContent (env : FCEnv) (doLoad : Bool) : FCResult :=
  match env.cacheGet with
  | .error e => ⟨.error e, false⟩
  | .ok (some (contents, length)) =>
      ⟨.ok ⟨.cached, .cache contents, length, false⟩, false⟩
  | .ok none =>
    if !env.useTape then ⟨.error .noStore, false⟩
    else
      let length := env.blobSize
      if !doLoad then ⟨.ok ⟨.waiting, .nothing, length, false⟩, false⟩
      else
        match env.ledgerFind with
        | some e => ⟨.error e, false⟩
        | none =>
          let cacheMaxSize := env.cacheMaxSize
          if cacheMaxSize = 0 ∨ length < Int.tdiv cacheMaxSize 8 then
            ⟨.ok ⟨.waiting, .nothing, length, true⟩, true⟩
          else
            match env.tapeBlob with
            | .error e => ⟨.error e, false⟩
            | .ok realContents =>
                ⟨.ok ⟨.large, .tape realContents, length, false⟩, false⟩

/-! ## Populate routine (`copyBlobIntoCache`, server/item.go lines 406-460) -/

/-- Environment of one `copyBlobIntoCache` run: the result of
`s.Cache.Put(key)`, whether `cw.Close()` succeeded, the result of
`s.Items.Blob` (declared length on success), and the result of `io.Copy`
(bytes copied on success). -/
structure CopyEnv where
  putResult : Except Err Unit
  closeOk : Bool
  blobResult : Except Err Int
  copyResult : Except Err Int
deriving Repr

/-- Observable outcome of `copyBlobIntoCache`: the errors recorded in the
error ledger, in order, and whether the deferred cleanup called
`s.Cache.Delete(key)` (it does so exactly when `keepcopy` is false on
exit). -/
structure CopyOutcome where
  ledgerAdds : List Err
  deleted : Bool
deriving DecidableEq, Repr

/-- `copyBlobIntoCache` (item.go lines 409-460).  On a `Cache.Put` error
`keepcopy` is set to true (a copy by someone else may already exist) and
the routine returns.  Otherwise the body runs; the deferred `cw.Close()`
clears `keepcopy` when it fails; the outermost defer deletes the cache
entry unless `keepcopy` is still true. -/
def copyBlobIntoCache (env : CopyEnv) : CopyOutcome :=
  match env.putResult with
  | .error _ => ⟨[], false⟩
  | .ok _ =>
    let body : Bool × List Err :=
      match env.blobResult with
      | .error e => (false, [e])
      | .ok length =>
        match env.copyResult with
        | .error e => (false, [e])
        | .ok n =>
          if n ≠ length then (false, [.lengthMismatch n length])
          else (true, [])
    let keepcopy := body.1 && env.closeOk
    ⟨body.2, !keepcopy⟩

/-! ## Request handler loop (`getblob`, server/item.go lines 177-270)

`getblob` runs `findContent`, handles errors, and on a Waiting outcome for
a GET request waits on the done channel (60-second ceiling) and retries
once.  The model takes the results of the first and the (potential)
second `findContent` call and whether the wait on the channel completed
before the 60-second timer fired.  The response is either an HTTP error
status or "serve the reader"; the model also counts the `findContent`
calls made. -/

/-- The timeout, in seconds, of `select { case <-content.done; case
<-time.After(60 * time.Second) }` (item.go line 239). -/
def getblobWaitSeconds : Nat := 60

/-- Outcome of the `select` on the done channel versus the 60 s timer. -/
inductive WaitOutcome where
  | completed
  | timedOut
deriving DecidableEq, Repr

/-- How `getblob` answers a request: an HTTP error status, or serving the
content of the given reader source. -/
inductive GBResponse where
  | http (code : Nat)
  | serve (src : RSource)
deriving DecidableEq, Repr

/-- The error-to-status mapping of item.go lines 188-205. -/
def getblobErrCode : Err → Nat
  | .noStore => 503
  | .deleted => 410
  | .noBlob => 404
  | _ => 500

/-- `getblob` (item.go lines 186-250), starting at the `retry:` label.
`r1` and `r2` are the results of the first and second `findContent` call,
`isGET` tells whether the request method is GET, and `wait` is the result
of the select between the done channel and the 60-second timer.  Returns
the response and the number of `findContent` calls performed. -/
def getblob (r1 r2 : Except Err contentSource) (isGET : Bool)
    (wait : WaitOutcome) : GBResponse × Nat :=
  match r1 with
  | .error e => (.http (getblobErrCode e), 1)
  | .ok content =>
    match content.status with
    | .cached => (.serve content.r, 1)
    | .large => (.serve content.r, 1)
    | .waiting =>
      -- firsttime is true here; non-GET requests do not wait for content
      if !isGET then (.serve content.r, 1)
      else
        match wait with
        | .timedOut => (.http 504, 1)
        | .completed =>
          -- goto retry with firsttime = false
          match r2 with
          | .error e => (.http (getblobErrCode e), 2)
          | .ok content2 =>
            match content2.status with
            | .cached => (.serve content2.r, 2)
            | .large => (.serve content2.r, 2)
            | .waiting => (.http 500, 2)   -- waiting a second time
            | .unknown => (.http 500, 2)
    | .unknown => (.http 500, 1)

/-! ## Fragment store: staged files (`fragment/fragment.go`)

A staged `file` tracks its total `Size`, the counter `N` used to number
the next fragment, and the ordered fragment list.  A fragment's store key
is `fmt.Sprintf("%s+%04d", f.ID, f.N)`; the model keeps the numeric index
together with the size, and derives the key with `mkFragKey`. -/

/-- One fragment of a staged file (fragment.go lines 113-117), with its
numeric index (the `%04d` part of its store key) and its size. -/
structure FragChild where
  idx : Nat
  size : Int
deriving DecidableEq, Repr

/-- The staged-file record (fragment.go lines 96-111); only the fields the
append/rollback path touches. -/
structure FragFile where
  ID : String
  Size : Int
  N : Nat
  Children : List FragChild
deriving DecidableEq, Repr

/-- Zero-padding of `%04d`. -/
def pad4 (n : Nat) : String :=
  let s := toString n
  if s.length < 4 then String.mk (List.replicate (4 - s.length) '0') ++ s
  else s

/-- The fragment store key `fmt.Sprintf("%s+%04d", f.ID, n)`. -/
def mkFragKey (fileID : String) (n : Nat) : String :=
  fileID ++ "+" ++ pad4 n

/-- A file as created by `Store.New(id)` (fragment.go lines 253-267):
empty, with the fragment counter at zero. -/
def newFragFile (id : String) : FragFile :=
  { ID := id, Size := 0, N := 0, Children := [] }

/-- A successful `file.Append` (fragment.go lines 328-341) followed by a
successful `fragwriter.Close` (lines 357-367) after writing `size` bytes:
the new fragment takes index `f.N`, the counter increments, and on close
the fragment size and the file size are updated. -/
def FragFile.appendClose (f : FragFile) (size : Int) : FragFile :=
  { f with N := f.N + 1,
           Children := f.Children ++ [⟨f.N, size⟩],
           Size := f.Size + size }

/-- `file.Rollback` (fragment.go lines 431-443): read `Children[len-1]`
(with an empty fragment list this evaluates `f.Children[-1]`, an
out-of-bounds access, modelled as `none`), delete its stream, truncate the
list and subtract the fragment's size.  The backing-store delete is
assumed to succeed. -/
def FragFile.rollback (f : FragFile) : Option FragFile :=
  let n : Int := (f.Children.length : Int) - 1
  if n < 0 then none
  else
    match f.Children[n.toNat]? with
    | none => none
    | some frag =>
        some { f with Children := f.Children.take n.toNat,
                      Size := f.Size - frag.size }

/-- Iterate `Rollback` `m` times. -/
def FragFile.rollbackN (f : FragFile) : Nat → Option FragFile
  | 0 => some f
  | m + 1 =>
    match f.rollback with
    | none => none
    | some g => g.rollbackN m

/-- Run one `appendClose` per entry of `sizes`, in order. -/
def FragFile.appendAll (f : FragFile) (sizes : List Int) : FragFile :=
  sizes.foldl FragFile.appendClose f

/-! ## Fragment store: label filtering (`Store.ListFiltered` and
`combineCommon`, fragment.go lines 187-248)

`combineCommon` is an n-way scan with one cursor per list, a current
candidate value `bar`, and a count `nEqual` of how many cursors in a row
were seen pointing at `bar`.  The Go loop is flattened into a step
function over the loop state: one step is one iteration of the inner
`for`; the `break` statements carry the advance of `currentList` with
them.  The loop terminates (the function returns) exactly when the
current cursor runs off the end of its list; the recursion is fuelled,
and `ccMeasure` below is proved to be a strict bound on the number of
steps. -/

/-- State of the `combineCommon` loop: the cursor array `idxs`, the
accumulated `result`, the scan maximum `bar` (Go's zero value `""` at
entry), the index `currentList` of the list being examined, and
`nEqual`. -/
structure CCState where
  idxs : List Nat
  result : List String
  bar : String
  currentList : Nat
  nEqual : Nat
deriving DecidableEq, Repr

/-- `currentList++; if currentList >= len(lists) { currentList = 0 }`. -/
def nextListIdx (k : Nat) (c : Nat) : Nat :=
  if c + 1 ≥ k then 0 else c + 1

/-- One iteration of the inner loop of `combineCommon` (fragment.go lines
220-241): `Sum.inr` is the `return result` exit, `Sum.inl` continues with
the new state. -/
def ccStep (lists : List (List String)) (s : CCState) : CCState ⊕ List String :=
  let list := lists.getD s.currentList []
  let i := s.idxs.getD s.currentList 0
  if i ≥ list.length then .inr s.result
  else
    let v := list.getD i ""
    if v = s.bar then
      if s.nEqual + 1 < lists.length then
        .inl { s with nEqual := s.nEqual + 1,
                      currentList := nextListIdx lists.length s.currentList }
      else
        -- a match across every list: emit bar, then idxs[currentList]++
        .inl { s with result := s.result ++ [s.bar], nEqual := 0,
                      idxs := s.idxs.set s.currentList (i + 1) }
    else if s.bar < v then
      .inl { s with bar := v, nEqual := 0,
                    currentList := nextListIdx lists.length s.currentList }
    else
      .inl { s with idxs := s.idxs.set s.currentList (i + 1) }

/-- Number of elements strictly above `bar` over all the lists: the
dominant component of the termination measure (the scan maximum `bar`
only ever grows, and every growth consumes one of these elements). -/
def ccG (lists : List (List String)) (s : CCState) : Nat :=
  ∑ i ∈ Finset.range lists.length,
    (lists.getD i []).countP (fun v => decide (s.bar < v))

/-- Number of elements the cursors have not yet passed: the middle
component of the termination measure. -/
def ccR (lists : List (List String)) (s : CCState) : Nat :=
  ∑ i ∈ Finset.range lists.length,
    ((lists.getD i []).length - s.idxs.getD i 0)

/-- Strict upper bound on the number of steps remaining from state `s`:
a packed lexicographic measure of (`ccG`, `ccR`, `len(lists) - nEqual`). -/
def ccMeasure (lists : List (List String)) (s : CCState) : Nat :=
  ccG lists s * (((lists.map List.length).sum + 1) * (lists.length + 1)) +
    ccR lists s * (lists.length + 1) + (lists.length - s.nEqual)

/-- Cyclic distance from list `i` backwards in round-robin order to the
current list `cur`: 0 for `cur` itself, 1 for the list visited just
before it, and so on (all indices below `k`). -/
def ccDist (k cur i : Nat) : Nat :=
  if i ≤ cur then cur - i else cur + k - i

/-- Fuelled run of the loop. -/
def ccRun (lists : List (List String)) : Nat → CCState → List String
  | 0, s => s.result
  | fuel + 1, s =>
    match ccStep lists s with
    | .inr res => res
    | .inl s' => ccRun lists fuel s'

/-- Entry state of `combineCommon`: all cursors at 0, empty result, `bar`
and `nEqual` at their Go zero values, `currentList = 0`. -/
def ccInit (lists : List (List String)) : CCState :=
  { idxs := List.replicate lists.length 0, result := [], bar := "",
    currentList := 0, nEqual := 0 }

/-- `combineCommon` (fragment.go lines 207-248). -/
def combineCommon (lists : List (List String)) : List String :=
  if lists.length = 0 then []
  else ccRun lists (ccMeasure lists (ccInit lists) + 1) (ccInit lists)

/-- The part of the fragment `Store` that `ListFiltered` reads: the set of
file IDs (`s.files` keys) and the label index (`s.labels`; a missing label
yields Go's nil slice). -/
structure FragStore where
  files : List String
  labels : String → List String

/-- `Store.List` (fragment.go lines 177-185): the stored file IDs. -/
def StoreList (st : FragStore) : List String := st.files

/-- `Store.ListFiltered` (fragment.go lines 190-203): with no labels,
`List()` sorted; otherwise `combineCommon` of the per-label index
lists. -/
def ListFiltered (st : FragStore) (labels : List String) : List String :=
  if labels.length = 0 then
    (StoreList st).mergeSort (fun a b => decide (a ≤ b))
  else
    combineCommon (labels.map st.labels)

/-- An error-ledger entry is live (unexpired) at `now`: the Go scan skips
an entry exactly when `expires.Before(now)`, i.e. `expires < now`. -/
def entryLive (now : Nat) (x : errorentry) : Bool :=
  decide (now ≤ x.expires)

/-- An entry satisfies the `find` scan for `key`: right key and live. -/
def entryMatch (now : Nat) (key : String) (x : errorentry) : Bool :=
  decide (x.key = key) && entryLive now x

/-- The staged-file invariant of claim C4: the size is the sum of the
fragment sizes, the fragment indices are strictly increasing, and every
index is below the next-fragment counter. -/
def FragInv (f : FragFile) : Prop :=
  f.Size = (f.Children.map FragChild.size).sum ∧
  (f.Children.map FragChild.idx).Chain' (· < ·) ∧
  ∀ c ∈ f.Children, c.idx < f.N

/-- The loop invariant of `combineCommon`, over lists that are strictly
sorted.  `passed` says every element a cursor has moved past is below
`bar` or is an already-emitted copy of `bar`; `window` says the `nEqual`
lists visited immediately before the current one still have their cursors
on `bar`; `complete` and `sound` tie the accumulated result to the
intersection; `bar_res` says that once `bar` has been emitted the current
cursor is already past it. -/
structure CCInv (lists : List (List String)) (s : CCState) : Prop where
  idxs_len : s.idxs.length = lists.length
  idx_le : ∀ i < lists.length, s.idxs.getD i 0 ≤ (lists.getD i []).length
  cur_lt : s.currentList < lists.length
  neq_lt : s.nEqual < lists.length
  passed : ∀ i < lists.length, ∀ j < s.idxs.getD i 0,
    (lists.getD i []).getD j "" < s.bar ∨
      ((lists.getD i []).getD j "" = s.bar ∧ s.bar ∈ s.result)
  window : ∀ i < lists.length,
    1 ≤ ccDist lists.length s.currentList i →
    ccDist lists.length s.currentList i ≤ s.nEqual →
    s.idxs.getD i 0 < (lists.getD i []).length ∧
      (lists.getD i []).getD (s.idxs.getD i 0) "" = s.bar
  complete : ∀ x, (∀ i < lists.length, x ∈ lists.getD i []) →
    x < s.bar → x ∈ s.result
  sound : ∀ y ∈ s.result, ∀ i < lists.length, y ∈ lists.getD i []
  res_sorted : s.result.Sorted (· < ·)
  res_le : ∀ y ∈ s.result, y ≤ s.bar
  bar_res : s.bar ∈ s.result → s.nEqual = 0 ∧
    ((lists.getD s.currentList []).length ≤ s.idxs.getD s.currentList 0 ∨
      s.bar < (lists.getD s.currentList []).getD
        (s.idxs.getD s.currentList 0) "")

/-! # Theorems -/

/-- `seekAbs` with a negative target errors and leaves the state alone. -/
theorem seekAbs_neg (r : readseekcloser) (a : Int) (h : a < 0) :
    r.seekAbs a = (.error .invalidPos, r) := by
  simp [readseekcloser.seekAbs, h]

/-- `seekAbs` with an in-range target succeeds. -/
theorem seekAbs_inrange (r : readseekcloser) (a : Int) (h0 : 0 ≤ a)
    (h1 : a ≤ r.size) : r.seekAbs a = (.ok a, { r with off := a }) := by
  have hn : ¬ a < 0 := by omega
  have hg : ¬ a > r.size := by omega
  simp [readseekcloser.seekAbs, hn, hg]

/-- `seekAbs` past the end clamps to the size. -/
theorem seekAbs_clamp (r : readseekcloser) (a : Int) (h0 : 0 ≤ a)
    (h1 : r.size < a) :
    r.seekAbs a = (.ok r.size, { r with off := r.size }) := by
  have hn : ¬ a < 0 := by omega
  have hg : a > r.size := h1
  simp [readseekcloser.seekAbs, hn, hg]

/-- C7: for the range adapter's `Seek(offset, whence)`: whence selects
start, current, or end as the base; a negative resulting absolute offset
is an error and the position is unchanged; a resulting offset past the end
is clamped to the size; otherwise (including the clamped case) `Seek` sets
the position and returns the new absolute offset; an unknown whence value
is an error. -/
theorem C7_seek_spec (r : readseekcloser) (offset : Int) (whence : Nat)
    (a : Int) :
    (3 ≤ whence → r.Seek offset whence = (.error .whence, r)) ∧
    ((whence = 0 ∧ a = offset) ∨ (whence = 1 ∧ a = r.off + offset) ∨
        (whence = 2 ∧ a = r.size + offset) →
      (a < 0 → r.Seek offset whence = (.error .invalidPos, r)) ∧
      (0 ≤ a → a ≤ r.size → r.Seek offset whence = (.ok a, { r with off := a })) ∧
      (0 ≤ a → r.size < a →
        r.Seek offset whence = (.ok r.size, { r with off := r.size }))) := by
  constructor
  · intro h3
    have h0 : ¬ whence = 0 := by omega
    have h1 : ¬ whence = 1 := by omega
    have h2 : ¬ whence = 2 := by omega
    simp [readseekcloser.Seek, h0, h1, h2]
  · rintro (⟨hw, ha⟩ | ⟨hw, ha⟩ | ⟨hw, ha⟩) <;> subst hw <;> subst ha <;>
      exact ⟨fun hneg => by simp [readseekcloser.Seek, seekAbs_neg r _ hneg],
        fun hpos hle => by simp [readseekcloser.Seek, seekAbs_inrange r _ hpos hle],
        fun hpos hgt => by simp [readseekcloser.Seek, seekAbs_clamp r _ hpos hgt]⟩

/-- Witness for C7 at concrete inputs: seeking to -1 from the start fails
with the position unchanged, and seeking past the end clamps to the
size. -/
theorem C7_seek_witness :
    readseekcloser.Seek ⟨[0, 1, 2], 0, 3⟩ (-1) 0 =
      (.error .invalidPos, ⟨[0, 1, 2], 0, 3⟩) ∧
    readseekcloser.Seek ⟨[0, 1, 2], 0, 3⟩ 103 0 =
      (.ok 3, ⟨[0, 1, 2], 3, 3⟩) := by
  refine ⟨((C7_seek_spec ⟨[0, 1, 2], 0, 3⟩ (-1) 0 (-1)).2
      (Or.inl ⟨rfl, rfl⟩)).1 (by decide), ?_⟩
  exact ((C7_seek_spec ⟨[0, 1, 2], 0, 3⟩ 103 0 103).2
      (Or.inl ⟨rfl, rfl⟩)).2.2 (by decide) (by decide)

/-- C8: the range adapter's `Read(p)` performs `ReadAt(p, offset)` on the
underlying reader-at, advances the stored offset by the number of bytes
returned, and suppresses the end-of-stream error when `n > 0`;
consequently `Seek(off, Start)` followed by `Read` returns the bytes
`[off, off+n)` of the underlying content. -/
theorem C8_read_spec (r : readseekcloser) (off m : Nat)
    (hsize : r.size = (r.content.length : Int))
    (hoff : off ≤ r.content.length) :
    (∀ s : readseekcloser, 0 ≤ s.off →
      (s.Read m).1 = (ReadAt s.content m s.off.toNat).1 ∧
      (s.Read m).2.2.off = s.off + ((s.Read m).1.length : Int) ∧
      (0 < (s.Read m).1.length → (s.Read m).2.1 = false)) ∧
    (r.Seek off 0).1 = .ok off ∧
    ((r.Seek off 0).2.Read m).1 = (r.content.drop off).take m ∧
    (∀ j < ((r.Seek off 0).2.Read m).1.length,
      ((r.Seek off 0).2.Read m).1.getD j 0 = r.content.getD (off + j) 0) ∧
    ((r.Seek off 0).2.Read m).2.2.off =
      (off : Int) + (((r.content.drop off).take m).length : Int) := by
  have hseek : r.Seek off 0 = (.ok off, { r with off := off }) := by
    have h := seekAbs_inrange r off (by positivity)
      (by rw [hsize]; exact_mod_cast hoff)
    simpa [readseekcloser.Seek] using h
  refine ⟨?_, ?_, ?_, ?_, ?_⟩
  · intro s hs
    refine ⟨rfl, rfl, fun hn => ?_⟩
    simp only [readseekcloser.Read]
    simp only [readseekcloser.Read] at hn
    simp [Nat.pos_iff_ne_zero.mp hn]
  · rw [hseek]
  · rw [hseek]
    simp [readseekcloser.Read, ReadAt]
  · rw [hseek]
    intro j hj
    simp only [readseekcloser.Read, ReadAt] at hj ⊢
    simp only [Int.toNat_ofNat] at hj ⊢
    have hj' : j < ((r.content.drop off).take m).length := by
      simpa using hj
    have hjd : j < (r.content.drop off).length := by
      have h2 := hj'
      rw [List.length_take] at h2
      omega
    have hoj : off + j < r.content.length := by
      rw [List.length_drop] at hjd
      omega
    rw [List.getD_eq_getElem _ _ hj', List.getD_eq_getElem _ _ hoj]
    rw [List.getElem_take, List.getElem_drop]
  · rw [hseek]
    simp [readseekcloser.Read, ReadAt]

/-- Witness for C8: seeking to offset 2 of a five-byte stream and reading
three bytes yields bytes 2, 3, 4. -/
theorem C8_read_witness :
    ((readseekcloser.Seek ⟨[10, 11, 12, 13, 14], 0, 5⟩ ((2 : Nat) : Int)
        0).2.Read 3).1 = [12, 13, 14] := by
  rw [(C8_read_spec ⟨[10, 11, 12, 13, 14], 0, 5⟩ 2 3 (by decide)
      (by decide)).2.2.1]
  decide

/-- C9: `Rollback` removes exactly the trailing fragment only under the
precondition that the file has at least one fragment: on a staged file
with an empty fragment list the access `f.Children[len(f.Children)-1]`
has index -1 and is out of bounds (modelled as `none`), so `Rollback` is
not total on files with zero fragments. -/
theorem C9_rollback_needs_fragment (f : FragFile) :
    (f.Children = [] → f.rollback = none) ∧
    (∀ cs c, f.Children = cs ++ [c] →
      f.rollback = some { f with Children := cs, Size := f.Size - c.size }) := by
  obtain ⟨id, sz, n, ch⟩ := f
  constructor
  · intro h
    simp only at h
    subst h
    simp [FragFile.rollback]
  · intro cs c h
    simp only at h
    subst h
    have hnn : ¬ (((cs ++ [c]).length : Int) - 1 < 0) := by
      simp only [List.length_append, List.length_cons, List.length_nil]
      push_cast
      omega
    have htn : ((((cs ++ [c]).length : Int)) - 1).toNat = cs.length := by
      simp only [List.length_append, List.length_cons, List.length_nil]
      omega
    simp only [FragFile.rollback, hnn, if_false, htn]
    rw [List.getElem?_concat_length]
    simp [List.take_left]

/-- Witness for C9: a file with a single fragment of size 7 rolls back to
the empty file; the empty file's rollback is `none`. -/
theorem C9_rollback_witness :
    FragFile.rollback ⟨"z", 7, 1, [⟨0, 7⟩]⟩ = some ⟨"z", 0, 1, []⟩ ∧
    FragFile.rollback ⟨"z", 0, 0, []⟩ = none := by
  constructor
  · have h := (C9_rollback_needs_fragment ⟨"z", 7, 1, [⟨0, 7⟩]⟩).2 [] ⟨0, 7⟩ rfl
    rw [h]
    norm_num
  · exact (C9_rollback_needs_fragment ⟨"z", 0, 0, []⟩).1 rfl

/-- C2: on a cache miss with `doLoad`, no ledger entry, and `MaxSize > 0`,
a blob whose declared size is at least `MaxSize/8` bypasses the cache: the
coordinator returns `ContentLarge` with a reader sourced directly from
slow storage and starts no populate (so nothing is written to the cache);
with `MaxSize = 0` (unbounded) the bypass never occurs and a populate is
started instead. -/
theorem C2_large_bypass (env : FCEnv) (bs : List Nat)
    (hmiss : env.cacheGet = .ok none) (htape : env.useTape = true)
    (hledger : env.ledgerFind = none) (hblob : env.tapeBlob = .ok bs) :
    (0 < env.cacheMaxSize → Int.tdiv env.cacheMaxSize 8 ≤ env.blobSize →
      findContent env true =
        ⟨.ok ⟨.large, .tape bs, env.blobSize, false⟩, false⟩) ∧
    (env.cacheMaxSize = 0 →
      findContent env true =
        ⟨.ok ⟨.waiting, .nothing, env.blobSize, true⟩, true⟩) := by
  constructor
  · intro hpos hge
    have hcond : ¬ (env.cacheMaxSize = 0 ∨
        env.blobSize < Int.tdiv env.cacheMaxSize 8) := by
      push_neg
      exact ⟨by omega, hge⟩
    simp [findContent, hmiss, htape, hledger, hblob, hcond]
  · intro h0
    have hcond : env.cacheMaxSize = 0 ∨
        env.blobSize < Int.tdiv env.cacheMaxSize 8 := Or.inl h0
    simp [findContent, hmiss, htape, hledger, hcond]

/-- Witness for C2, matching the spec scenario "Oversized bypass":
`MaxSize = 1000`, blob size 200 > 125 = 1000/8.  The result is a
`ContentLarge` reader over the tape bytes, with no populate started; with
`MaxSize = 0` the same environment starts a populate. -/
theorem C2_large_bypass_witness :
    findContent ⟨.ok none, true, 200, none, 1000, .ok [1, 2]⟩ true =
      ⟨.ok ⟨.large, .tape [1, 2], 200, false⟩, false⟩ ∧
    findContent ⟨.ok none, true, 200, none, 0, .ok [1, 2]⟩ true =
      ⟨.ok ⟨.waiting, .nothing, 200, true⟩, true⟩ :=
  ⟨(C2_large_bypass ⟨.ok none, true, 200, none, 1000, .ok [1, 2]⟩ [1, 2]
      rfl rfl rfl rfl).1 (by norm_num) (by decide),
   (C2_large_bypass ⟨.ok none, true, 200, none, 0, .ok [1, 2]⟩ [1, 2]
      rfl rfl rfl rfl).2 rfl⟩

/-- Counterexample to C10 as stated: `findContent` can return `ErrNoStore`
even though `useTape` is true and the key misses the cache, because the
error ledger stores arbitrary earlier populate errors (`copyBlobIntoCache`
records whatever `s.Items.Blob` returned, which is `ErrNoStore` when the
item store was disabled during the populate) and `findContent` returns the
ledger entry verbatim.  So "ErrNoStore is returned exactly when the key
misses the cache and useTape is false" fails in the only-if direction. -/
theorem C10_counterexample :
    (findContent ⟨.ok none, true, 5, some .noStore, 0, .ok []⟩ true).res =
      .error .noStore ∧
    FCEnv.useTape ⟨.ok none, true, 5, some .noStore, 0, .ok []⟩ = true :=
  ⟨rfl, rfl⟩

/-- C10 (amended): `findContent` consults the cache before the
tape-disabled check — a cache hit returns `ContentCached` for any
`useTape` and `doLoad`; a cache miss with `useTape` false returns
`ErrNoStore` regardless of `doLoad`; and conversely, provided the cache
lookup, the error-ledger entry and the slow-storage open are not
themselves the `ErrNoStore` value, `ErrNoStore` is returned only on a
cache miss with `useTape` false. -/
theorem C10_cache_before_tape (env : FCEnv) (doLoad : Bool) :
    (∀ c l, env.cacheGet = .ok (some (c, l)) →
      findContent env doLoad = ⟨.ok ⟨.cached, .cache c, l, false⟩, false⟩) ∧
    (env.cacheGet = .ok none → env.useTape = false →
      findContent env doLoad = ⟨.error .noStore, false⟩) ∧
    (env.ledgerFind ≠ some .noStore → env.cacheGet ≠ .error .noStore →
      env.tapeBlob ≠ .error .noStore →
      (findContent env doLoad).res = .error .noStore →
      env.cacheGet = .ok none ∧ env.useTape = false) := by
  refine ⟨?_, ?_, ?_⟩
  · intro c l h
    simp [findContent, h]
  · intro hmiss htape
    simp [findContent, hmiss, htape]
  · intro hled hget htb hres
    match hc : env.cacheGet with
    | .error e =>
      rw [findContent] at hres
      rw [hc] at hres
      simp at hres
      exact absurd (hc.trans (by rw [hres])) hget
    | .ok (some (c, l)) =>
      rw [findContent] at hres
      rw [hc] at hres
      simp at hres
    | .ok none =>
      refine ⟨rfl, ?_⟩
      by_contra htape
      have htape' : env.useTape = true := by
        cases h : env.useTape
        · exact absurd h htape
        · rfl
      rw [findContent] at hres
      rw [hc] at hres
      simp only [htape', Bool.not_true, Bool.false_eq_true, if_false] at hres
      cases doLoad with
      | false => simp at hres
      | true =>
        simp only [Bool.not_true, Bool.false_eq_true, if_false] at hres
        match hl : env.ledgerFind with
        | some e =>
          rw [hl] at hres
          simp at hres
          exact hled (by rw [hl, hres])
        | none =>
          rw [hl] at hres
          simp only at hres
          by_cases hcond : env.cacheMaxSize = 0 ∨
              env.blobSize < Int.tdiv env.cacheMaxSize 8
          · simp [hcond] at hres
          · simp only [hcond, if_false] at hres
            match ht : env.tapeBlob with
            | .error e =>
              rw [ht] at hres
              simp at hres
              exact htb (by rw [ht, hres])
            | .ok bs =>
              rw [ht] at hres
              simp at hres

/-- Witness for C10 (amended): a cache hit is served as `ContentCached`
even with tape disabled, and a miss with tape disabled is `ErrNoStore`. -/
theorem C10_cache_before_tape_witness :
    findContent ⟨.ok (some ([9], 1)), false, 5, none, 0, .ok []⟩ false =
      ⟨.ok ⟨.cached, .cache [9], 1, false⟩, false⟩ ∧
    findContent ⟨.ok none, false, 5, none, 0, .ok []⟩ true =
      ⟨.error .noStore, false⟩ :=
  ⟨(C10_cache_before_tape ⟨.ok (some ([9], 1)), false, 5, none, 0, .ok []⟩
      false).1 [9] 1 rfl,
   (C10_cache_before_tape ⟨.ok none, false, 5, none, 0, .ok []⟩ true).2.1
      rfl rfl⟩

/-- C1: in every `copyBlobIntoCache` run whose cache writer opened
successfully, each of the three error cases — slow-storage open failure,
copy failure, and a copied length differing from the expected length —
records the error in the error ledger and deletes the partially-written
cache entry; and the entry is kept only when the copy succeeded with the
expected length (and the writer close succeeded), in which case nothing is
recorded. -/
theorem C1_copy_error_handling (env : CopyEnv)
    (hput : env.putResult = .ok ()) :
    (∀ e, env.blobResult = .error e → copyBlobIntoCache env = ⟨[e], true⟩) ∧
    (∀ len e, env.blobResult = .ok len → env.copyResult = .error e →
      copyBlobIntoCache env = ⟨[e], true⟩) ∧
    (∀ len n, env.blobResult = .ok len → env.copyResult = .ok n → n ≠ len →
      copyBlobIntoCache env = ⟨[.lengthMismatch n len], true⟩) ∧
    ((copyBlobIntoCache env).deleted = false →
      env.closeOk = true ∧ (copyBlobIntoCache env).ledgerAdds = [] ∧
      ∃ len, env.blobResult = .ok len ∧ env.copyResult = .ok len) := by
  refine ⟨?_, ?_, ?_, ?_⟩
  · intro e hb
    simp [copyBlobIntoCache, hput, hb]
  · intro len e hb hcp
    simp [copyBlobIntoCache, hput, hb, hcp]
  · intro len n hb hcp hne
    simp [copyBlobIntoCache, hput, hb, hcp, hne]
  · intro hdel
    match hb : env.blobResult with
    | .error e =>
      rw [copyBlobIntoCache, hput] at hdel
      simp [hb] at hdel
    | .ok len =>
      match hcp : env.copyResult with
      | .error e =>
        rw [copyBlobIntoCache, hput] at hdel
        simp [hb, hcp] at hdel
      | .ok n =>
        by_cases hne : n = len
        · subst hne
          rw [copyBlobIntoCache, hput] at hdel
          simp [hb, hcp] at hdel
          exact ⟨hdel, by simp [copyBlobIntoCache, hput, hb, hcp], n, rfl, rfl⟩
        · rw [copyBlobIntoCache, hput] at hdel
          simp [hb, hcp, hne] at hdel

/-- Witness for C1: a length mismatch (copied 3, expected 5) records the
mismatch error and deletes the cache entry. -/
theorem C1_copy_error_handling_witness :
    copyBlobIntoCache ⟨.ok (), true, .ok 5, .ok 3⟩ =
      ⟨[.lengthMismatch 3 5], true⟩ :=
  (C1_copy_error_handling ⟨.ok (), true, .ok 5, .ok 3⟩ rfl).2.2.1 5 3 rfl rfl
    (by decide)

/-- C5: a `getblob` caller that receives outcome Waiting on a GET request
waits on the completion channel for at most 60 seconds
(`getblobWaitSeconds`); on timeout it responds 504; on completion it
re-enters `findContent` exactly once, and if the second call again reports
Waiting the request is answered 500 rather than waiting again — the
handler never performs more than two `findContent` calls. -/
theorem C5_getblob_waits_once (r1 r2 : Except Err contentSource)
    (c : contentSource) (h1 : r1 = .ok c) (hw : c.status = .waiting) :
    (getblob r1 r2 true .timedOut = (.http 504, 1)) ∧
    (∀ wait, wait = .completed → (getblob r1 r2 true wait).2 = 2) ∧
    (∀ c2, r2 = .ok c2 → c2.status = .waiting →
      getblob r1 r2 true .completed = (.http 500, 2)) ∧
    (∀ (r1' r2' : Except Err contentSource) (g : Bool) (w : WaitOutcome),
      (getblob r1' r2' g w).2 ≤ 2) ∧
    getblobWaitSeconds = 60 := by
  subst h1
  refine ⟨?_, ?_, ?_, ?_, rfl⟩
  · simp [getblob, hw]
  · intro wait hwt
    subst hwt
    match r2 with
    | .error e => simp [getblob, hw]
    | .ok c2 => cases h2 : c2.status <;> simp [getblob, hw, h2]
  · intro c2 h2 hw2
    subst h2
    simp [getblob, hw, hw2]
  · intro r1' r2' g w
    match r1' with
    | .error e => simp [getblob]
    | .ok c1 =>
      cases hc1 : c1.status
      · simp [getblob, hc1]
      · simp [getblob, hc1]
      · simp [getblob, hc1]
      · cases g
        · simp [getblob, hc1]
        · cases w
          · match r2' with
            | .error e => simp [getblob, hc1]
            | .ok c2 => cases hc2 : c2.status <;> simp [getblob, hc1, hc2]
          · simp [getblob, hc1]

/-- Witness for C5: with a first Waiting outcome, a timed-out wait gives
504 after one coordinator call, and a second Waiting outcome after a
completed wait gives 500 after exactly two calls. -/
theorem C5_getblob_waits_once_witness :
    getblob (.ok ⟨.waiting, .nothing, 5, true⟩)
        (.ok ⟨.waiting, .nothing, 5, true⟩) true .timedOut =
      (.http 504, 1) ∧
    getblob (.ok ⟨.waiting, .nothing, 5, true⟩)
        (.ok ⟨.waiting, .nothing, 5, true⟩) true .completed =
      (.http 500, 2) :=
  ⟨(C5_getblob_waits_once (.ok ⟨.waiting, .nothing, 5, true⟩)
      (.ok ⟨.waiting, .nothing, 5, true⟩) ⟨.waiting, .nothing, 5, true⟩
      rfl rfl).1,
   (C5_getblob_waits_once (.ok ⟨.waiting, .nothing, 5, true⟩)
      (.ok ⟨.waiting, .nothing, 5, true⟩) ⟨.waiting, .nothing, 5, true⟩
      rfl rfl).2.2.1 ⟨.waiting, .nothing, 5, true⟩ rfl rfl⟩

/-- `find?` is the head of the filtered list. -/
theorem find?_eq_head?_filter {α : Type} (p : α → Bool) (l : List α) :
    l.find? p = (l.filter p).head? := by
  induction l with
  | nil => rfl
  | cons x xs ih =>
    by_cases h : p x
    · rw [List.find?_cons_of_pos _ h, List.filter_cons, if_pos h]
      rfl
    · rw [List.find?_cons_of_neg _ h, List.filter_cons, if_neg h, ih]

/-- On a list ordered newest-first (nonincreasing expirations), the
backward scan returns the first live match if there is one, and otherwise
the number of live entries it walked over. -/
theorem scanRev_eq (now : Nat) (key : String) (r : List errorentry)
    (hp : r.Pairwise (fun a b => b.expires ≤ a.expires)) :
    scanRev now key r =
      match r.find? (entryMatch now key) with
      | some x => .inl x.err
      | none => .inr (r.takeWhile (entryLive now)).length := by
  induction r with
  | nil => rfl
  | cons x rest ih =>
    obtain ⟨hx, hp'⟩ := List.pairwise_cons.mp hp
    by_cases hexp : x.expires < now
    · have hfind : (x :: rest).find? (entryMatch now key) = none := by
        rw [List.find?_eq_none]
        intro y hy
        rcases List.mem_cons.mp hy with hy | hy
        · subst hy
          simp [entryMatch, entryLive]
          intro _
          omega
        · have := hx y hy
          simp [entryMatch, entryLive]
          intro _
          omega
      have hlive : entryLive now x = false := by
        simp [entryLive]
        omega
      rw [hfind]
      simp [scanRev, hexp, List.takeWhile_cons, hlive]
    · by_cases hkey : x.key = key
      · have hm : entryMatch now key x = true := by
          simp [entryMatch, entryLive, hkey]
          omega
        rw [List.find?_cons_of_pos _ hm]
        simp [scanRev, hexp, hkey]
      · have hm : ¬ entryMatch now key x = true := by
          simp [entryMatch, hkey]
        have hlive : entryLive now x = true := by
          simp [entryLive]
          omega
        rw [List.find?_cons_of_neg _ hm]
        rw [List.takeWhile_cons, if_pos hlive]
        simp only [scanRev, if_neg hexp, if_neg hkey]
        rw [ih hp']
        cases hf : rest.find? (entryMatch now key) with
        | some y => simp [hf]
        | none => simp [hf]

/-- A successful backward scan exhibits a live entry with the key. -/
theorem scanRev_inl (now : Nat) (key : String) (r : List errorentry)
    (er : Err) (h : scanRev now key r = .inl er) :
    ∃ x ∈ r, x.key = key ∧ now ≤ x.expires ∧ x.err = er := by
  induction r with
  | nil => simp [scanRev] at h
  | cons x rest ih =>
    by_cases hexp : x.expires < now
    · simp [scanRev, hexp] at h
    · by_cases hkey : x.key = key
      · simp only [scanRev, if_neg hexp, if_pos hkey, Sum.inl.injEq] at h
        exact ⟨x, List.mem_cons_self x rest, hkey, by omega, h⟩
      · simp only [scanRev, if_neg hexp, if_neg hkey] at h
        cases hs : scanRev now key rest with
        | inl r' =>
          rw [hs] at h
          simp only [Sum.inl.injEq] at h
          subst h
          obtain ⟨y, hy, h1, h2, h3⟩ := ih hs
          exact ⟨y, List.mem_cons_of_mem x hy, h1, h2, h3⟩
        | inr k =>
          rw [hs] at h
          simp at h

/-- On a list ordered newest-first, the live entries are exactly the
leading ones. -/
theorem takeWhile_live_eq_filter (now : Nat) (r : List errorentry)
    (hp : r.Pairwise (fun a b => b.expires ≤ a.expires)) :
    r.takeWhile (entryLive now) = r.filter (entryLive now) := by
  induction r with
  | nil => rfl
  | cons x rest ih =>
    obtain ⟨hx, hp'⟩ := List.pairwise_cons.mp hp
    by_cases hl : entryLive now x
    · rw [List.takeWhile_cons, if_pos hl, List.filter_cons, if_pos hl,
        ih hp']
    · have hrest : rest.filter (entryLive now) = [] := by
        rw [List.filter_eq_nil_iff]
        intro y hy
        have := hx y hy
        simp only [entryLive, decide_eq_true_eq] at hl ⊢
        omega
      rw [List.takeWhile_cons, if_neg hl, List.filter_cons, if_neg hl,
        hrest]

/-- The first component of `errorlist.find` is the most recent unexpired
matching entry. -/
theorem errorlistFind_fst (e : List errorentry) (now : Nat) (key : String)
    (ho : expOrdered e) :
    (errorlistFind e now key).1 =
      ((e.filter (entryMatch now key)).getLast?).map errorentry.err := by
  have hp : e.reverse.Pairwise (fun a b => b.expires ≤ a.expires) := by
    rw [List.pairwise_reverse]
    exact ho
  have hr : (e.filter (entryMatch now key)).getLast? =
      e.reverse.find? (entryMatch now key) := by
    rw [List.getLast?_eq_head?_reverse, ← List.filter_reverse,
      ← find?_eq_head?_filter]
  rw [errorlistFind, scanRev_eq now key _ hp, hr]
  cases hf : e.reverse.find? (entryMatch now key) with
  | some x => simp
  | none => simp

/-- When `errorlist.find` finds nothing, it prunes the list down to the
unexpired entries. -/
theorem errorlistFind_snd (e : List errorentry) (now : Nat) (key : String)
    (ho : expOrdered e) (hnone : (errorlistFind e now key).1 = none) :
    (errorlistFind e now key).2 = e.filter (entryLive now) := by
  have hp : e.reverse.Pairwise (fun a b => b.expires ≤ a.expires) := by
    rw [List.pairwise_reverse]
    exact ho
  rw [errorlistFind, scanRev_eq now key _ hp] at hnone ⊢
  cases hf : e.reverse.find? (entryMatch now key) with
  | some x =>
    rw [hf] at hnone
    simp at hnone
  | none =>
    simp only []
    -- the kept suffix is the reversed block of live entries
    have htw : e.reverse.takeWhile (entryLive now) =
        (e.filter (entryLive now)).reverse := by
      rw [takeWhile_live_eq_filter now _ hp, List.filter_reverse]
    have hpre : e.reverse.takeWhile (entryLive now) =
        e.reverse.take (e.reverse.takeWhile (entryLive now)).length :=
      List.prefix_iff_eq_take.mp (List.takeWhile_prefix _)
    have hlen : (e.reverse.takeWhile (entryLive now)).length =
        (e.filter (entryLive now)).length := by
      rw [htw, List.length_reverse]
    rw [hlen]
    have hdrop : e.drop (e.length - (e.filter (entryLive now)).length) =
        (e.reverse.take ((e.filter (entryLive now)).length)).reverse := by
      rw [List.reverse_take, List.reverse_reverse, List.length_reverse]
    rw [hdrop, ← hlen, ← hpre, htw, List.reverse_reverse]

/-- C3: for the error ledger, `add(key, err)` appends an entry expiring
30 seconds after `now` (so the list stays in nondecreasing expiration
order when adds happen in time order); `find(key)` returns the most
recent unexpired entry for the key, or `none`; when the backward scan
finds no match it truncates the expired prefix away; and once every entry
for the key has expired, `find(key)` returns `none`. -/
theorem C3_errorledger_spec (e : List errorentry) (key : String) (er : Err)
    (now : Nat) :
    (errorlistAdd e key er now = e ++ [⟨key, er, now + 30⟩]) ∧
    (expOrdered e → (∀ x ∈ e, x.expires ≤ now + 30) →
      expOrdered (errorlistAdd e key er now)) ∧
    (expOrdered e →
      (errorlistFind e now key).1 =
        ((e.filter (entryMatch now key)).getLast?).map errorentry.err) ∧
    (expOrdered e → (errorlistFind e now key).1 = none →
      (errorlistFind e now key).2 = e.filter (entryLive now)) ∧
    ((∀ x ∈ e, x.key = key → x.expires < now) →
      (errorlistFind e now key).1 = none) := by
  refine ⟨rfl, ?_, ?_, ?_, ?_⟩
  · intro ho hb
    rw [errorlistAdd, expOrdered, List.pairwise_append]
    refine ⟨ho, List.pairwise_singleton _ _, ?_⟩
    intro a ha b hb'
    rcases List.mem_singleton.mp hb' with rfl
    exact hb a ha
  · exact errorlistFind_fst e now key
  · exact errorlistFind_snd e now key
  · intro hall
    rw [errorlistFind]
    cases hs : scanRev now key e.reverse with
    | inl r' =>
      obtain ⟨x, hx, h1, h2, _⟩ := scanRev_inl now key _ r' hs
      have := hall x (List.mem_reverse.mp hx) h1
      omega
    | inr k => rfl

/-- Witness for C3 on a concrete ledger: with entries expiring at 90
(expired), 120 and 130, at `now = 100` the lookup for "k" returns the most
recent unexpired "k"-entry, a miss for "z" prunes the expired prefix, and
at `now = 200` the "k"-lookup is `none`. -/
theorem C3_errorledger_witness :
    (errorlistFind
        [⟨"k", .noStore, 90⟩, ⟨"k", .other "x", 120⟩, ⟨"j", .deleted, 130⟩]
        100 "k").1 = some (.other "x") ∧
    (errorlistFind
        [⟨"k", .noStore, 90⟩, ⟨"k", .other "x", 120⟩, ⟨"j", .deleted, 130⟩]
        100 "z").2 =
      [⟨"k", .other "x", 120⟩, ⟨"j", .deleted, 130⟩] ∧
    (errorlistFind
        [⟨"k", .noStore, 90⟩, ⟨"k", .other "x", 120⟩, ⟨"j", .deleted, 130⟩]
        200 "k").1 = none ∧
    errorlistAdd [] "k" .noStore 70 = [⟨"k", .noStore, 100⟩] := by
  have ho : expOrdered
      [⟨"k", .noStore, 90⟩, ⟨"k", .other "x", 120⟩, ⟨"j", .deleted, 130⟩] := by
    rw [expOrdered]
    refine List.Pairwise.cons ?_ (List.Pairwise.cons ?_
      (List.pairwise_singleton _ _))
    · intro b hb
      rcases List.mem_cons.mp hb with rfl | hb
      · decide
      · rcases List.mem_singleton.mp hb with rfl
        decide
    · intro b hb
      rcases List.mem_singleton.mp hb with rfl
      decide
  refine ⟨?_, ?_, ?_, ?_⟩
  · rw [(C3_errorledger_spec
        [⟨"k", .noStore, 90⟩, ⟨"k", .other "x", 120⟩, ⟨"j", .deleted, 130⟩]
        "k" .noStore 100).2.2.1 ho]
    rfl
  · rw [(C3_errorledger_spec
        [⟨"k", .noStore, 90⟩, ⟨"k", .other "x", 120⟩, ⟨"j", .deleted, 130⟩]
        "z" .noStore 100).2.2.2.1 ho (by rfl)]
    rfl
  · exact (C3_errorledger_spec
        [⟨"k", .noStore, 90⟩, ⟨"k", .other "x", 120⟩, ⟨"j", .deleted, 130⟩]
        "k" .noStore 200).2.2.2.2 (by decide)
  · exact (C3_errorledger_spec [] "k" .noStore 70).1

/-- `Rollback` on an empty fragment list is the out-of-bounds access. -/
theorem rollback_nil (f : FragFile) (h : f.Children = []) :
    f.rollback = none := by
  obtain ⟨id, sz, n, ch⟩ := f
  simp only at h
  subst h
  simp [FragFile.rollback]

/-- `Rollback` on a nonempty fragment list removes the trailing fragment
and subtracts its size. -/
theorem rollback_concat (f : FragFile) (cs : List FragChild) (c : FragChild)
    (h : f.Children = cs ++ [c]) :
    f.rollback = some { f with Children := cs, Size := f.Size - c.size } := by
  obtain ⟨id, sz, n, ch⟩ := f
  simp only at h
  subst h
  have hnn : ¬ (((cs ++ [c]).length : Int) - 1 < 0) := by
    simp only [List.length_append, List.length_cons, List.length_nil]
    push_cast
    omega
  have htn : ((((cs ++ [c]).length : Int)) - 1).toNat = cs.length := by
    simp only [List.length_append, List.length_cons, List.length_nil]
    omega
  simp only [FragFile.rollback, hnn, if_false, htn]
  rw [List.getElem?_concat_length]
  simp [List.take_left]

/-- A successful `Rollback` never changes the next-fragment counter. -/
theorem rollback_some_N (f g : FragFile) (h : f.rollback = some g) :
    g.N = f.N ∧ g.ID = f.ID := by
  rcases List.eq_nil_or_concat f.Children with hc | ⟨cs, c, hc⟩
  · rw [rollback_nil f hc] at h
    cases h
  · rw [List.concat_eq_append] at hc
    rw [rollback_concat f cs c hc] at h
    cases h
    exact ⟨rfl, rfl⟩

/-- `Store.New` yields a file satisfying the invariant. -/
theorem fragInv_new (id : String) : FragInv (newFragFile id) := by
  refine ⟨rfl, List.chain'_nil, ?_⟩
  intro c hc
  cases hc

/-- The invariant is preserved by a successful append+close, which uses
the fresh index `f.N`. -/
theorem fragInv_appendClose (f : FragFile) (sz : Int) (h : FragInv f) :
    FragInv (f.appendClose sz) := by
  obtain ⟨h1, h2, h3⟩ := h
  refine ⟨?_, ?_, ?_⟩
  · simp [FragFile.appendClose, h1]
  · simp only [FragFile.appendClose, List.map_append, List.map_cons,
      List.map_nil]
    rw [List.chain'_append]
    refine ⟨h2, List.chain'_singleton _, ?_⟩
    intro x hx y hy
    have hx' : x ∈ f.Children.map FragChild.idx :=
      List.mem_of_mem_getLast? hx
    obtain ⟨cx, hcx, hcx2⟩ := List.mem_map.mp hx'
    have hy' : y = f.N := by
      simp only [List.head?_cons, Option.mem_def, Option.some.injEq] at hy
      omega
    subst hy'
    rw [← hcx2]
    exact h3 cx hcx
  · intro c hc
    simp only [FragFile.appendClose, List.mem_append,
      List.mem_singleton] at hc
    rcases hc with hc | hc
    · exact Nat.lt_succ_of_lt (h3 c hc)
    · subst hc
      exact Nat.lt_succ_self _

/-- Appending a list of fragments preserves the invariant, advances the
counter by the number of appends, and grows the fragment list by the same
amount. -/
theorem fragInv_appendAll (sizes : List Int) : ∀ f : FragFile, FragInv f →
    FragInv (f.appendAll sizes) ∧
    (f.appendAll sizes).N = f.N + sizes.length ∧
    (f.appendAll sizes).Children.length = f.Children.length + sizes.length := by
  induction sizes with
  | nil =>
    intro f hf
    exact ⟨hf, by simp [FragFile.appendAll], by simp [FragFile.appendAll]⟩
  | cons a t ih =>
    intro f hf
    have hstep : f.appendAll (a :: t) = (f.appendClose a).appendAll t := by
      simp [FragFile.appendAll]
    obtain ⟨i1, i2, i3⟩ := ih (f.appendClose a) (fragInv_appendClose f a hf)
    rw [hstep]
    refine ⟨i1, ?_, ?_⟩
    · rw [i2]
      simp [FragFile.appendClose]
      omega
    · rw [i3]
      simp [FragFile.appendClose]
      omega

/-- A successful rollback preserves the invariant. -/
theorem fragInv_rollback (f g : FragFile) (h : FragInv f)
    (hr : f.rollback = some g) :
    FragInv g ∧ g.N = f.N ∧ g.Children.length + 1 = f.Children.length := by
  obtain ⟨h1, h2, h3⟩ := h
  rcases List.eq_nil_or_concat f.Children with hc | ⟨cs, c, hc⟩
  · rw [rollback_nil f hc] at hr
    cases hr
  · rw [List.concat_eq_append] at hc
    rw [rollback_concat f cs c hc] at hr
    cases hr
    refine ⟨⟨?_, ?_, ?_⟩, rfl, by rw [hc]; simp⟩
    · rw [h1, hc]
      simp
    · have := h2
      rw [hc, List.map_append] at this
      exact (List.chain'_append.mp this).1
    · intro d hd
      exact h3 d (by rw [hc]; exact List.mem_append_left _ hd)

/-- `M` rollbacks succeed whenever at least `M` fragments remain, and
preserve the invariant, the counter and the identity of the remaining
prefix length. -/
theorem rollbackN_spec (M : Nat) : ∀ f : FragFile, FragInv f →
    M ≤ f.Children.length →
    ∃ g, f.rollbackN M = some g ∧ FragInv g ∧ g.N = f.N ∧
      g.Children.length = f.Children.length - M := by
  induction M with
  | zero =>
    intro f hf _
    exact ⟨f, rfl, hf, rfl, by omega⟩
  | succ m ih =>
    intro f hf hlen
    rcases List.eq_nil_or_concat f.Children with hc | ⟨cs, c, hc⟩
    · rw [hc] at hlen
      simp at hlen
    · rw [List.concat_eq_append] at hc
      have hr := rollback_concat f cs c hc
      obtain ⟨hinv, hN, hlen1⟩ := fragInv_rollback f _
        ⟨hf.1, hf.2.1, hf.2.2⟩ hr
      obtain ⟨g, hg1, hg2, hg3, hg4⟩ := ih _ hinv (by omega)
      refine ⟨g, ?_, hg2, by rw [hg3, ← hN] , by omega⟩
      rw [FragFile.rollbackN, hr]
      exact hg1

/-- C4: after `N` successful appends from a fresh staged file followed by
`M ≤ N` rollbacks, the size equals the sum of the remaining fragment
sizes, the next-fragment counter is at least `N`, and the fragment
indices are strictly increasing, all below the counter, and never reused:
a further append takes the still-unused index `g.N` (and `Rollback` never
decrements the counter). -/
theorem C4_fragment_invariant (id : String) (sizes : List Int) (M : Nat)
    (hM : M ≤ sizes.length) :
    (∀ f g : FragFile, f.rollback = some g → g.N = f.N) ∧
    ∃ g, ((newFragFile id).appendAll sizes).rollbackN M = some g ∧
      g.Size = (g.Children.map FragChild.size).sum ∧
      sizes.length ≤ g.N ∧
      (g.Children.map FragChild.idx).Chain' (· < ·) ∧
      (∀ c ∈ g.Children, c.idx < g.N) ∧
      ∀ s : Int, (g.appendClose s).Children.map FragChild.idx =
        (g.Children.map FragChild.idx) ++ [g.N] := by
  constructor
  · intro f g h
    exact (rollback_some_N f g h).1
  · obtain ⟨hinv, hN, hlen⟩ :=
      fragInv_appendAll sizes (newFragFile id) (fragInv_new id)
    have hN' : ((newFragFile id).appendAll sizes).N = sizes.length := by
      rw [hN]
      simp [newFragFile]
    have hlen' : ((newFragFile id).appendAll sizes).Children.length =
        sizes.length := by
      rw [hlen]
      simp [newFragFile]
    obtain ⟨g, hg1, hg2, hg3, hg4⟩ := rollbackN_spec M _ hinv (by omega)
    refine ⟨g, hg1, hg2.1, by omega, hg2.2.1, hg2.2.2, ?_⟩
    intro s
    simp [FragFile.appendClose]

/-- Witness for C4: three appends of sizes 3, 5, 0 followed by two
rollbacks leave one fragment of size 3 with the counter still at 3. -/
theorem C4_fragment_invariant_witness :
    ((newFragFile "f1").appendAll [3, 5, 0]).rollbackN 2 =
      some ⟨"f1", 3, 3, [⟨0, 3⟩]⟩ ∧
    (FragFile.Size ⟨"f1", 3, 3, [⟨0, 3⟩]⟩ =
      ((FragFile.Children ⟨"f1", 3, 3, [⟨0, 3⟩]⟩).map FragChild.size).sum) := by
  obtain ⟨-, g, hg1, hg2, hg3, hg4, hg5, -⟩ :=
    C4_fragment_invariant "f1" [3, 5, 0] 2 (by norm_num)
  have hgval : ((newFragFile "f1").appendAll [3, 5, 0]).rollbackN 2 =
      some ⟨"f1", 3, 3, [⟨0, 3⟩]⟩ := by rfl
  exact ⟨hgval, by rw [hgval] at hg1; cases hg1; exact hg2⟩

/-- `getD` after `set` at the written position. -/
theorem getD_set_self (l : List Nat) (c x : Nat) (h : c < l.length) :
    (l.set c x).getD c 0 = x := by
  rw [List.getD_eq_getElem _ _ (by rw [List.length_set]; exact h)]
  rw [List.getElem_set]
  simp

/-- `getD` after `set` at any other position. -/
theorem getD_set_ne (l : List Nat) (c j x : Nat) (h : j ≠ c) :
    (l.set c x).getD j 0 = l.getD j 0 := by
  rw [List.getD_eq_getElem?_getD, List.getD_eq_getElem?_getD,
    List.getElem?_set]
  rw [if_neg (fun hcj => h hcj.symm)]

/-- `getD` on a list of zeros. -/
theorem getD_replicate_zero (k i : Nat) :
    (List.replicate k 0).getD i 0 = 0 := by
  induction k generalizing i with
  | zero => rfl
  | succ n ih =>
    cases i with
    | zero => rfl
    | succ j =>
      rw [List.replicate_succ, List.getD_cons_succ]
      exact ih j

/-- The current list is at distance 0 from itself. -/
theorem ccDist_self (k cur : Nat) : ccDist k cur cur = 0 := by
  simp [ccDist]

/-- Distances of the other lists are between 1 and `k-1`. -/
theorem ccDist_pos_ne {k cur i : Nat} (_hc : cur < k) (hi : i < k)
    (h : i ≠ cur) : 1 ≤ ccDist k cur i ∧ ccDist k cur i ≤ k - 1 := by
  unfold ccDist
  split_ifs <;> omega

/-- Distance 0 characterises the current list. -/
theorem ccDist_eq_zero_iff {k cur i : Nat} (hc : cur < k) (hi : i < k) :
    ccDist k cur i = 0 ↔ i = cur := by
  unfold ccDist
  split_ifs <;> omega

/-- Advancing the current list rotates all distances by one. -/
theorem ccDist_next {k cur i : Nat} (hc : cur < k) (hi : i < k) :
    ccDist k (nextListIdx k cur) i =
      if ccDist k cur i = k - 1 then 0 else ccDist k cur i + 1 := by
  unfold ccDist nextListIdx
  split_ifs <;> omega

/-- The round-robin successor stays in range. -/
theorem nextListIdx_lt (k cur : Nat) (hk : 0 < k) : nextListIdx k cur < k := by
  unfold nextListIdx
  split_ifs <;> omega

/-- The loop exit: the current cursor ran off its list. -/
theorem ccStep_halt {lists : List (List String)} {s : CCState}
    (h : s.idxs.getD s.currentList 0 ≥ (lists.getD s.currentList []).length) :
    ccStep lists s = .inr s.result := by
  simp only [ccStep]
  rw [if_pos h]

/-- The match-and-count case of the loop body. -/
theorem ccStep_match_count {lists : List (List String)} {s : CCState}
    (h1 : ¬ s.idxs.getD s.currentList 0 ≥ (lists.getD s.currentList []).length)
    (h2 : (lists.getD s.currentList []).getD (s.idxs.getD s.currentList 0) ""
      = s.bar)
    (h3 : s.nEqual + 1 < lists.length) :
    ccStep lists s = .inl { s with
      nEqual := s.nEqual + 1,
      currentList := nextListIdx lists.length s.currentList } := by
  simp only [ccStep]
  rw [if_neg h1, if_pos h2, if_pos h3]

/-- The match-everywhere (emit) case of the loop body. -/
theorem ccStep_match_emit {lists : List (List String)} {s : CCState}
    (h1 : ¬ s.idxs.getD s.currentList 0 ≥ (lists.getD s.currentList []).length)
    (h2 : (lists.getD s.currentList []).getD (s.idxs.getD s.currentList 0) ""
      = s.bar)
    (h3 : ¬ s.nEqual + 1 < lists.length) :
    ccStep lists s = .inl { s with
      result := s.result ++ [s.bar],
      nEqual := 0,
      idxs := s.idxs.set s.currentList (s.idxs.getD s.currentList 0 + 1) } := by
  simp only [ccStep]
  rw [if_neg h1, if_pos h2, if_neg h3]

/-- The new-maximum case of the loop body. -/
theorem ccStep_gt {lists : List (List String)} {s : CCState}
    (h1 : ¬ s.idxs.getD s.currentList 0 ≥ (lists.getD s.currentList []).length)
    (h2 : ¬ (lists.getD s.currentList []).getD (s.idxs.getD s.currentList 0) ""
      = s.bar)
    (h3 : s.bar <
      (lists.getD s.currentList []).getD (s.idxs.getD s.currentList 0) "") :
    ccStep lists s = .inl { s with
      bar := (lists.getD s.currentList []).getD (s.idxs.getD s.currentList 0) "",
      nEqual := 0,
      currentList := nextListIdx lists.length s.currentList } := by
  simp only [ccStep]
  rw [if_neg h1, if_neg h2, if_pos h3]

/-- The skip-forward case of the loop body. -/
theorem ccStep_lt {lists : List (List String)} {s : CCState}
    (h1 : ¬ s.idxs.getD s.currentList 0 ≥ (lists.getD s.currentList []).length)
    (h2 : ¬ (lists.getD s.currentList []).getD (s.idxs.getD s.currentList 0) ""
      = s.bar)
    (h3 : ¬ s.bar <
      (lists.getD s.currentList []).getD (s.idxs.getD s.currentList 0) "") :
    ccStep lists s = .inl { s with
      idxs := s.idxs.set s.currentList (s.idxs.getD s.currentList 0 + 1) } := by
  simp only [ccStep]
  rw [if_neg h1, if_neg h2, if_neg h3]

/-- `ccG` depends only on `bar`. -/
theorem ccG_congr {lists : List (List String)} {s s' : CCState}
    (h : s'.bar = s.bar) : ccG lists s' = ccG lists s := by
  unfold ccG
  rw [h]

/-- `ccR` depends only on the cursors. -/
theorem ccR_congr {lists : List (List String)} {s s' : CCState}
    (h : s'.idxs = s.idxs) : ccR lists s' = ccR lists s := by
  unfold ccR
  rw [h]

/-- The list-sum of lengths as a `Finset.range` sum. -/
theorem sum_map_length_eq (lists : List (List String)) :
    (lists.map List.length).sum =
      ∑ i ∈ Finset.range lists.length, (lists.getD i []).length := by
  induction lists with
  | nil => simp
  | cons a t ih =>
    rw [List.map_cons, List.sum_cons, ih, List.length_cons,
      Finset.sum_range_succ']
    simp [List.getD_cons_succ, List.getD_cons_zero]
    omega

/-- `ccR` never exceeds the total number of elements. -/
theorem ccR_le (lists : List (List String)) (s : CCState) :
    ccR lists s ≤ (lists.map List.length).sum := by
  rw [sum_map_length_eq]
  unfold ccR
  exact Finset.sum_le_sum (fun i _ => Nat.sub_le _ _)

/-- Packed three-component lexicographic comparison. -/
theorem packedMeasure_lt {rmax k g g' r r' e e' : Nat}
    (hr : r ≤ rmax) (hr' : r' ≤ rmax) (_he : e ≤ k) (he' : e' ≤ k)
    (hlex : g' < g ∨ (g' = g ∧ (r' < r ∨ (r' = r ∧ e' < e)))) :
    g' * ((rmax + 1) * (k + 1)) + r' * (k + 1) + e' <
      g * ((rmax + 1) * (k + 1)) + r * (k + 1) + e := by
  rcases hlex with hg | ⟨rfl, hrr⟩
  · calc g' * ((rmax + 1) * (k + 1)) + r' * (k + 1) + e'
        ≤ g' * ((rmax + 1) * (k + 1)) + rmax * (k + 1) + k := by
          have := Nat.mul_le_mul_right (k + 1) hr'
          omega
      _ < g' * ((rmax + 1) * (k + 1)) + (rmax + 1) * (k + 1) := by
          rw [Nat.succ_mul rmax (k + 1)]
          omega
      _ = (g' + 1) * ((rmax + 1) * (k + 1)) := by ring
      _ ≤ g * ((rmax + 1) * (k + 1)) := Nat.mul_le_mul_right _ (by omega)
      _ ≤ g * ((rmax + 1) * (k + 1)) + r * (k + 1) + e := by omega
  · rcases hrr with hrlt | ⟨rfl, hee⟩
    · have : r' * (k + 1) + e' < r * (k + 1) + e := by
        calc r' * (k + 1) + e' < r' * (k + 1) + (k + 1) := by omega
          _ = (r' + 1) * (k + 1) := by ring
          _ ≤ r * (k + 1) := Nat.mul_le_mul_right _ (by omega)
          _ ≤ r * (k + 1) + e := by omega
      omega
    · omega

/-- Growing the threshold weakly shrinks the count of elements above it. -/
theorem countP_gt_mono (L : List String) (b v : String) (hbv : b < v) :
    L.countP (fun x => decide (v < x)) ≤
      L.countP (fun x => decide (b < x)) :=
  List.countP_mono_left (fun x _ hx => by
    simp only [decide_eq_true_eq] at hx ⊢
    exact lt_trans hbv hx)

/-- Growing the threshold to a member strictly shrinks the count. -/
theorem countP_gt_strict (L : List String) (b v : String) (hbv : b < v)
    (hv : v ∈ L) :
    L.countP (fun x => decide (v < x)) <
      L.countP (fun x => decide (b < x)) := by
  induction L with
  | nil => cases hv
  | cons a t ih =>
    rw [List.countP_cons, List.countP_cons]
    have hterm : (if decide (v < a) = true then 1 else 0) ≤
        (if decide (b < a) = true then 1 else 0) := by
      simp only [decide_eq_true_eq]
      split_ifs with hx1 hx2
      · omega
      · exact absurd (lt_trans hbv hx1) hx2
      · omega
      · omega
    rcases List.mem_cons.mp hv with rfl | hv'
    · have hmono := countP_gt_mono t b v hbv
      have hno : ¬ (decide (v < v) = true) := by simp
      have hyes : decide (b < v) = true := by
        simp only [decide_eq_true_eq]
        exact hbv
      rw [if_neg hno, if_pos hyes]
      omega
    · have := ih hv'
      omega

/-- No string is below the empty string. -/
theorem string_not_lt_empty (x : String) : ¬ x < "" := by
  simp [String.lt_iff_toList_lt]

/-- Invariant preservation in the skip-forward case: the passed element is
below `bar`. -/
theorem ccInv_lt {lists : List (List String)} {s : CCState}
    (hinv : CCInv lists s)
    (h1 : ¬ s.idxs.getD s.currentList 0 ≥ (lists.getD s.currentList []).length)
    (h2 : ¬ (lists.getD s.currentList []).getD (s.idxs.getD s.currentList 0) ""
      = s.bar)
    (h3 : ¬ s.bar <
      (lists.getD s.currentList []).getD (s.idxs.getD s.currentList 0) "") :
    CCInv lists { s with
      idxs := s.idxs.set s.currentList (s.idxs.getD s.currentList 0 + 1) } := by
  obtain ⟨hlen, hle, hcur, hneq, hpassed, hwin, hcomp, hsound, hsort, hresle,
    hbarres⟩ := hinv
  have hvlt : (lists.getD s.currentList []).getD (s.idxs.getD s.currentList 0)
      "" < s.bar :=
    lt_of_le_of_ne (le_of_not_lt h3) h2
  have hcl : s.currentList < s.idxs.length := by
    rw [hlen]
    exact hcur
  constructor
  case idxs_len =>
    dsimp only
    rw [List.length_set]
    exact hlen
  case idx_le =>
    intro i hi
    dsimp only
    by_cases hic : i = s.currentList
    · subst hic
      rw [getD_set_self _ _ _ hcl]
      omega
    · rw [getD_set_ne _ _ _ _ hic]
      exact hle i hi
  case cur_lt => exact hcur
  case neq_lt => exact hneq
  case passed =>
    intro i hi j hj
    dsimp only at hj ⊢
    by_cases hic : i = s.currentList
    · subst hic
      rw [getD_set_self _ _ _ hcl] at hj
      by_cases hji : j < s.idxs.getD s.currentList 0
      · exact hpassed s.currentList hi j hji
      · have hje : j = s.idxs.getD s.currentList 0 := by omega
        subst hje
        exact Or.inl hvlt
    · rw [getD_set_ne _ _ _ _ hic] at hj
      exact hpassed i hi j hj
  case window =>
    intro i hi hd1 hd2
    dsimp only at hd1 hd2 ⊢
    have hine : i ≠ s.currentList := by
      intro h
      subst h
      rw [ccDist_self] at hd1
      omega
    obtain ⟨hw1, hw2⟩ := hwin i hi hd1 hd2
    rw [getD_set_ne _ _ _ _ hine]
    exact ⟨hw1, hw2⟩
  case complete => exact hcomp
  case sound => exact hsound
  case res_sorted => exact hsort
  case res_le => exact hresle
  case bar_res =>
    intro hb
    rcases (hbarres hb).2 with hb2 | hb2
    · exact absurd hb2 h1
    · exact absurd hb2 h3

/-- The list under the cursor, as a member of `lists`. -/
theorem currentList_sorted {lists : List (List String)} {c : Nat}
    (hsorted : ∀ l ∈ lists, l.Sorted (· < ·)) (hc : c < lists.length) :
    (lists.getD c []).Sorted (· < ·) := by
  rw [List.getD_eq_getElem _ _ hc]
  exact hsorted _ (List.getElem_mem hc)

/-- Invariant preservation in the new-maximum case: `bar` grows to the
element under the cursor. -/
theorem ccInv_gt {lists : List (List String)} {s : CCState}
    (hsorted : ∀ l ∈ lists, l.Sorted (· < ·))
    (hinv : CCInv lists s)
    (h1 : ¬ s.idxs.getD s.currentList 0 ≥ (lists.getD s.currentList []).length)
    (h3 : s.bar <
      (lists.getD s.currentList []).getD (s.idxs.getD s.currentList 0) "") :
    CCInv lists { s with
      bar := (lists.getD s.currentList []).getD (s.idxs.getD s.currentList 0) "",
      nEqual := 0,
      currentList := nextListIdx lists.length s.currentList } := by
  obtain ⟨hlen, hle, hcur, hneq, hpassed, hwin, hcomp, hsound, hsort, hresle,
    hbarres⟩ := hinv
  have hidx : s.idxs.getD s.currentList 0 <
      (lists.getD s.currentList []).length := by omega
  constructor
  case idxs_len => exact hlen
  case idx_le => exact hle
  case cur_lt => exact nextListIdx_lt _ _ (by omega)
  case neq_lt => exact Nat.lt_of_lt_of_le Nat.zero_lt_one (by omega)
  case passed =>
    intro i hi j hj
    dsimp only at hj ⊢
    rcases hpassed i hi j hj with h | ⟨he, _⟩
    · exact Or.inl (lt_trans h h3)
    · exact Or.inl (he ▸ h3)
  case window =>
    intro i hi hd1 hd2
    dsimp only at hd1 hd2
    omega
  case complete =>
    intro x hx hlt
    dsimp only at hlt
    have hmem := hx s.currentList hcur
    obtain ⟨j, hjlt, hje⟩ := List.mem_iff_getElem.mp hmem
    have hLs := currentList_sorted hsorted hcur
    by_cases hji : j < s.idxs.getD s.currentList 0
    · have hp := hpassed s.currentList hcur j hji
      rw [List.getD_eq_getElem _ _ hjlt, hje] at hp
      rcases hp with hp | ⟨hp, hp2⟩
      · exact hcomp x hx hp
      · exact hp ▸ hp2
    · exfalso
      rw [List.getD_eq_getElem _ _ hidx] at hlt
      rcases Nat.lt_or_ge (s.idxs.getD s.currentList 0) j with hji2 | hji2
      · have := (List.pairwise_iff_getElem.mp hLs)
          (s.idxs.getD s.currentList 0) j hidx hjlt hji2
        rw [hje] at this
        exact absurd (lt_trans this hlt) (lt_irrefl _)
      · have hjeq : j = s.idxs.getD s.currentList 0 := by omega
        subst hjeq
        rw [hje] at hlt
        exact absurd hlt (lt_irrefl _)
  case sound => exact hsound
  case res_sorted => exact hsort
  case res_le =>
    intro y hy
    dsimp only
    exact le_trans (hresle y hy) (le_of_lt h3)
  case bar_res =>
    intro hb
    dsimp only at hb
    have := hresle _ hb
    exact absurd h3 (not_lt_of_le this)

/-- Invariant preservation in the match-and-count case: the window of
cursors parked on `bar` grows by the current list. -/
theorem ccInv_match_count {lists : List (List String)} {s : CCState}
    (hinv : CCInv lists s)
    (h1 : ¬ s.idxs.getD s.currentList 0 ≥ (lists.getD s.currentList []).length)
    (h2 : (lists.getD s.currentList []).getD (s.idxs.getD s.currentList 0) ""
      = s.bar)
    (h3 : s.nEqual + 1 < lists.length) :
    CCInv lists { s with
      nEqual := s.nEqual + 1,
      currentList := nextListIdx lists.length s.currentList } := by
  obtain ⟨hlen, hle, hcur, hneq, hpassed, hwin, hcomp, hsound, hsort, hresle,
    hbarres⟩ := hinv
  constructor
  case idxs_len => exact hlen
  case idx_le => exact hle
  case cur_lt => exact nextListIdx_lt _ _ (by omega)
  case neq_lt => exact h3
  case passed => exact hpassed
  case window =>
    intro i hi hd1 hd2
    dsimp only at hd1 hd2 ⊢
    rw [ccDist_next hcur hi] at hd1 hd2
    by_cases hic : i = s.currentList
    · subst hic
      exact ⟨by omega, h2⟩
    · have hdp := ccDist_pos_ne hcur hi hic
      by_cases hdk : ccDist lists.length s.currentList i = lists.length - 1
      · rw [if_pos hdk] at hd1
        omega
      · rw [if_neg hdk] at hd1 hd2
        exact hwin i hi (by omega) (by omega)
  case complete => exact hcomp
  case sound => exact hsound
  case res_sorted => exact hsort
  case res_le => exact hresle
  case bar_res =>
    intro hb
    dsimp only at hb
    rcases (hbarres hb).2 with hb2 | hb2
    · exact absurd hb2 h1
    · rw [h2] at hb2
      exact absurd hb2 (lt_irrefl _)

/-- Invariant preservation in the emit case: `bar` occurs at every cursor,
is appended to the result, and the current cursor moves past it. -/
theorem ccInv_match_emit {lists : List (List String)} {s : CCState}
    (hsorted : ∀ l ∈ lists, l.Sorted (· < ·))
    (hinv : CCInv lists s)
    (h1 : ¬ s.idxs.getD s.currentList 0 ≥ (lists.getD s.currentList []).length)
    (h2 : (lists.getD s.currentList []).getD (s.idxs.getD s.currentList 0) ""
      = s.bar)
    (h3 : ¬ s.nEqual + 1 < lists.length) :
    CCInv lists { s with
      result := s.result ++ [s.bar],
      nEqual := 0,
      idxs := s.idxs.set s.currentList (s.idxs.getD s.currentList 0 + 1) } := by
  obtain ⟨hlen, hle, hcur, hneq, hpassed, hwin, hcomp, hsound, hsort, hresle,
    hbarres⟩ := hinv
  have hNE : s.nEqual = lists.length - 1 := by omega
  have hidx : s.idxs.getD s.currentList 0 <
      (lists.getD s.currentList []).length := by omega
  have hcl : s.currentList < s.idxs.length := by
    rw [hlen]
    exact hcur
  have hbarnotin : s.bar ∉ s.result := by
    intro hb
    rcases (hbarres hb).2 with hb2 | hb2
    · exact absurd hb2 h1
    · rw [h2] at hb2
      exact absurd hb2 (lt_irrefl _)
  constructor
  case idxs_len =>
    dsimp only
    rw [List.length_set]
    exact hlen
  case idx_le =>
    intro i hi
    dsimp only
    by_cases hic : i = s.currentList
    · subst hic
      rw [getD_set_self _ _ _ hcl]
      omega
    · rw [getD_set_ne _ _ _ _ hic]
      exact hle i hi
  case cur_lt => exact hcur
  case neq_lt =>
    dsimp only
    omega
  case passed =>
    intro i hi j hj
    dsimp only at hj ⊢
    by_cases hic : i = s.currentList
    · subst hic
      rw [getD_set_self _ _ _ hcl] at hj
      by_cases hji : j < s.idxs.getD s.currentList 0
      · rcases hpassed s.currentList hi j hji with hp | ⟨hp1, hp2⟩
        · exact Or.inl hp
        · exact Or.inr ⟨hp1, List.mem_append_left _ hp2⟩
      · have hje : j = s.idxs.getD s.currentList 0 := by omega
        subst hje
        exact Or.inr ⟨h2, List.mem_append_right _ (List.mem_singleton.mpr rfl)⟩
    · rw [getD_set_ne _ _ _ _ hic] at hj
      rcases hpassed i hi j hj with hp | ⟨hp1, hp2⟩
      · exact Or.inl hp
      · exact Or.inr ⟨hp1, List.mem_append_left _ hp2⟩
  case window =>
    intro i hi hd1 hd2
    dsimp only at hd1 hd2
    omega
  case complete =>
    intro x hx hlt
    dsimp only at hlt ⊢
    exact List.mem_append_left _ (hcomp x hx hlt)
  case sound =>
    intro y hy i hi
    dsimp only at hy
    rcases List.mem_append.mp hy with hy | hy
    · exact hsound y hy i hi
    · rw [List.mem_singleton.mp hy]
      by_cases hic : i = s.currentList
      · subst hic
        rw [← h2, List.getD_eq_getElem _ _ hidx]
        exact List.getElem_mem hidx
      · obtain ⟨hd1, hd2⟩ := ccDist_pos_ne hcur hi hic
        obtain ⟨hw1, hw2⟩ := hwin i hi hd1 (by omega)
        rw [← hw2, List.getD_eq_getElem _ _ hw1]
        exact List.getElem_mem hw1
  case res_sorted =>
    dsimp only
    rw [List.Sorted, List.pairwise_append]
    refine ⟨hsort, List.pairwise_singleton _ _, ?_⟩
    intro y hy b hb
    rw [List.mem_singleton.mp hb]
    rcases lt_or_eq_of_le (hresle y hy) with hlt | heq
    · exact hlt
    · exact absurd (heq ▸ hy) hbarnotin
  case res_le =>
    intro y hy
    dsimp only at hy ⊢
    rcases List.mem_append.mp hy with hy | hy
    · exact hresle y hy
    · rw [List.mem_singleton.mp hy]
  case bar_res =>
    intro _
    dsimp only
    refine ⟨rfl, ?_⟩
    rw [getD_set_self _ _ _ hcl]
    by_cases hend : s.idxs.getD s.currentList 0 + 1 <
        (lists.getD s.currentList []).length
    · refine Or.inr ?_
      have hLs := currentList_sorted hsorted hcur
      have := (List.pairwise_iff_getElem.mp hLs)
        (s.idxs.getD s.currentList 0) (s.idxs.getD s.currentList 0 + 1)
        hidx hend (by omega)
      rw [List.getD_eq_getElem _ _ hend, ← h2,
        List.getD_eq_getElem _ _ hidx]
      exact this
    · exact Or.inl (by omega)

/-- Advancing the current cursor strictly decreases the measure. -/
theorem ccMeasure_advance {lists : List (List String)} {s : CCState}
    (s' : CCState) (hb : s'.bar = s.bar)
    (hx : s'.idxs = s.idxs.set s.currentList (s.idxs.getD s.currentList 0 + 1))
    (hcur : s.currentList < lists.length)
    (hlen : s.idxs.length = lists.length)
    (h1 : s.idxs.getD s.currentList 0 <
      (lists.getD s.currentList []).length) :
    ccMeasure lists s' < ccMeasure lists s := by
  have hcl : s.currentList < s.idxs.length := by
    rw [hlen]
    exact hcur
  have hr : ccR lists s' < ccR lists s := by
    unfold ccR
    rw [hx]
    apply Finset.sum_lt_sum
    · intro i _
      by_cases hic : i = s.currentList
      · subst hic
        rw [getD_set_self _ _ _ hcl]
        omega
      · rw [getD_set_ne _ _ _ _ hic]
    · refine ⟨s.currentList, Finset.mem_range.mpr hcur, ?_⟩
      rw [getD_set_self _ _ _ hcl]
      omega
  unfold ccMeasure
  exact packedMeasure_lt (ccR_le _ _) (ccR_le _ _) (by omega) (by omega)
    (Or.inr ⟨ccG_congr hb, Or.inl hr⟩)

/-- Counting one more matching cursor strictly decreases the measure. -/
theorem ccMeasure_count {lists : List (List String)} {s : CCState}
    (s' : CCState) (hb : s'.bar = s.bar) (hx : s'.idxs = s.idxs)
    (hne : s'.nEqual = s.nEqual + 1) (hlt : s.nEqual < lists.length) :
    ccMeasure lists s' < ccMeasure lists s := by
  unfold ccMeasure
  rw [ccG_congr hb, ccR_congr hx]
  omega

/-- Raising `bar` to a list element strictly decreases the measure. -/
theorem ccMeasure_gt {lists : List (List String)} {s : CCState}
    (s' : CCState)
    (hb : s'.bar =
      (lists.getD s.currentList []).getD (s.idxs.getD s.currentList 0) "")
    (hcur : s.currentList < lists.length)
    (h1 : s.idxs.getD s.currentList 0 < (lists.getD s.currentList []).length)
    (h3 : s.bar <
      (lists.getD s.currentList []).getD (s.idxs.getD s.currentList 0) "") :
    ccMeasure lists s' < ccMeasure lists s := by
  have hg : ccG lists s' < ccG lists s := by
    unfold ccG
    rw [hb]
    apply Finset.sum_lt_sum
    · intro i _
      exact countP_gt_mono _ _ _ h3
    · refine ⟨s.currentList, Finset.mem_range.mpr hcur, ?_⟩
      apply countP_gt_strict _ _ _ h3
      rw [List.getD_eq_getElem _ _ h1]
      exact List.getElem_mem h1
  unfold ccMeasure
  exact packedMeasure_lt (ccR_le _ _) (ccR_le _ _) (by omega) (by omega)
    (Or.inl hg)

/-- At the loop exit the accumulated result is the sorted intersection. -/
theorem ccHalt_spec {lists : List (List String)} {s : CCState}
    (hinv : CCInv lists s)
    (hhalt : s.idxs.getD s.currentList 0 ≥
      (lists.getD s.currentList []).length) :
    s.result.Sorted (· < ·) ∧
    ∀ x, x ∈ s.result ↔ ∀ i < lists.length, x ∈ lists.getD i [] := by
  obtain ⟨hlen, hle, hcur, hneq, hpassed, hwin, hcomp, hsound, hsort, hresle,
    hbarres⟩ := hinv
  refine ⟨hsort, fun x => ⟨fun hx i hi => hsound x hx i hi, fun hx => ?_⟩⟩
  have hmem := hx s.currentList hcur
  obtain ⟨j, hjlt, hje⟩ := List.mem_iff_getElem.mp hmem
  have hji : j < s.idxs.getD s.currentList 0 := by
    have := hle s.currentList hcur
    omega
  have hp := hpassed s.currentList hcur j hji
  rw [List.getD_eq_getElem _ _ hjlt, hje] at hp
  rcases hp with hp | ⟨hp1, hp2⟩
  · exact hcomp x hx hp
  · exact hp1 ▸ hp2

/-- The fuelled loop, started in an invariant state with fuel above the
measure, returns the sorted intersection of the lists. -/
theorem ccRun_spec (lists : List (List String))
    (hsorted : ∀ l ∈ lists, l.Sorted (· < ·)) :
    ∀ (fuel : Nat) (s : CCState), CCInv lists s →
    ccMeasure lists s < fuel →
    (ccRun lists fuel s).Sorted (· < ·) ∧
    ∀ x, x ∈ ccRun lists fuel s ↔ ∀ i < lists.length, x ∈ lists.getD i [] := by
  intro fuel
  induction fuel with
  | zero =>
    intro s _ hm
    omega
  | succ n ih =>
    intro s hinv hm
    by_cases hhalt : s.idxs.getD s.currentList 0 ≥
        (lists.getD s.currentList []).length
    · have hrun : ccRun lists (n + 1) s = s.result := by
        simp only [ccRun]
        rw [ccStep_halt hhalt]
      rw [hrun]
      exact ccHalt_spec ⟨hinv.idxs_len, hinv.idx_le, hinv.cur_lt, hinv.neq_lt,
        hinv.passed, hinv.window, hinv.complete, hinv.sound, hinv.res_sorted,
        hinv.res_le, hinv.bar_res⟩ hhalt
    · have h1 : s.idxs.getD s.currentList 0 <
          (lists.getD s.currentList []).length := by omega
      by_cases h2 : (lists.getD s.currentList []).getD
          (s.idxs.getD s.currentList 0) "" = s.bar
      · by_cases h3 : s.nEqual + 1 < lists.length
        · have hrun : ccRun lists (n + 1) s = ccRun lists n { s with
              nEqual := s.nEqual + 1,
              currentList := nextListIdx lists.length s.currentList } := by
            simp only [ccRun]
            rw [ccStep_match_count hhalt h2 h3]
          rw [hrun]
          refine ih _ (ccInv_match_count hinv hhalt h2 h3) ?_
          have := ccMeasure_count (s := s) { s with
              nEqual := s.nEqual + 1,
              currentList := nextListIdx lists.length s.currentList }
            rfl rfl rfl hinv.neq_lt
          omega
        · have hrun : ccRun lists (n + 1) s = ccRun lists n { s with
              result := s.result ++ [s.bar],
              nEqual := 0,
              idxs := s.idxs.set s.currentList
                (s.idxs.getD s.currentList 0 + 1) } := by
            simp only [ccRun]
            rw [ccStep_match_emit hhalt h2 h3]
          rw [hrun]
          refine ih _ (ccInv_match_emit hsorted hinv hhalt h2 h3) ?_
          have := ccMeasure_advance (s := s) { s with
              result := s.result ++ [s.bar],
              nEqual := 0,
              idxs := s.idxs.set s.currentList
                (s.idxs.getD s.currentList 0 + 1) }
            rfl rfl hinv.cur_lt hinv.idxs_len h1
          omega
      · by_cases h3 : s.bar < (lists.getD s.currentList []).getD
            (s.idxs.getD s.currentList 0) ""
        · have hrun : ccRun lists (n + 1) s = ccRun lists n { s with
              bar := (lists.getD s.currentList []).getD
                (s.idxs.getD s.currentList 0) "",
              nEqual := 0,
              currentList := nextListIdx lists.length s.currentList } := by
            simp only [ccRun]
            rw [ccStep_gt hhalt h2 h3]
          rw [hrun]
          refine ih _ (ccInv_gt hsorted hinv hhalt h3) ?_
          have := ccMeasure_gt (s := s) { s with
              bar := (lists.getD s.currentList []).getD
                (s.idxs.getD s.currentList 0) "",
              nEqual := 0,
              currentList := nextListIdx lists.length s.currentList }
            rfl hinv.cur_lt h1 h3
          omega
        · have hrun : ccRun lists (n + 1) s = ccRun lists n { s with
              idxs := s.idxs.set s.currentList
                (s.idxs.getD s.currentList 0 + 1) } := by
            simp only [ccRun]
            rw [ccStep_lt hhalt h2 h3]
          rw [hrun]
          refine ih _ (ccInv_lt hinv hhalt h2 h3) ?_
          have := ccMeasure_advance (s := s) { s with
              idxs := s.idxs.set s.currentList
                (s.idxs.getD s.currentList 0 + 1) }
            rfl rfl hinv.cur_lt hinv.idxs_len h1
          omega

/-- The entry state of `combineCommon` satisfies the invariant. -/
theorem ccInit_inv (lists : List (List String)) (hk : 0 < lists.length) :
    CCInv lists (ccInit lists) := by
  constructor
  case idxs_len => exact List.length_replicate _ _
  case idx_le =>
    intro i _
    dsimp only [ccInit]
    rw [getD_replicate_zero]
    exact Nat.zero_le _
  case cur_lt => exact hk
  case neq_lt => exact hk
  case passed =>
    intro i _ j hj
    dsimp only [ccInit] at hj
    rw [getD_replicate_zero] at hj
    omega
  case window =>
    intro i _ hd1 hd2
    dsimp only [ccInit] at hd1 hd2
    omega
  case complete =>
    intro x _ hlt
    dsimp only [ccInit] at hlt
    exact absurd hlt (string_not_lt_empty x)
  case sound =>
    intro y hy
    cases hy
  case res_sorted => exact List.sorted_nil
  case res_le =>
    intro y hy
    cases hy
  case bar_res =>
    intro hb
    cases hb

/-- `combineCommon` on a nonempty family of strictly sorted lists returns
the sorted intersection. -/
theorem combineCommon_spec (lists : List (List String)) (hk : lists ≠ [])
    (hsorted : ∀ l ∈ lists, l.Sorted (· < ·)) :
    (combineCommon lists).Sorted (· < ·) ∧
    ∀ x, x ∈ combineCommon lists ↔ ∀ i < lists.length, x ∈ lists.getD i [] := by
  have hk' : 0 < lists.length := List.length_pos.mpr hk
  have hne : ¬ lists.length = 0 := by omega
  rw [combineCommon, if_neg hne]
  exact ccRun_spec lists hsorted _ _ (ccInit_inv lists hk') (by omega)

/-- C6: `ListFiltered(labels)` returns exactly the sorted intersection of
the per-label file-ID lists — a file ID is in the result iff it appears in
the index list of every given label — and with no labels it returns all
file IDs in sorted order.  (The per-label index lists are maintained
sorted and duplicate-free by the store, hence the strict-sortedness
hypothesis.) -/
theorem C6_listFiltered_spec (st : FragStore) (labels : List String)
    (hsorted : ∀ lab ∈ labels, (st.labels lab).Sorted (· < ·)) :
    (labels = [] → (ListFiltered st labels).Sorted (· ≤ ·) ∧
      (ListFiltered st labels).Perm st.files) ∧
    (labels ≠ [] → (ListFiltered st labels).Sorted (· < ·) ∧
      ∀ x, x ∈ ListFiltered st labels ↔ ∀ lab ∈ labels, x ∈ st.labels lab) := by
  constructor
  · rintro rfl
    rw [show ListFiltered st [] =
        (StoreList st).mergeSort (fun a b => decide (a ≤ b)) from rfl]
    exact ⟨List.sorted_mergeSort' _, List.mergeSort_perm _ _⟩
  · intro hne
    have hk : ¬ labels.length = 0 := by
      intro h
      exact hne (List.length_eq_zero.mp h)
    rw [ListFiltered, if_neg hk]
    have hs' : ∀ l ∈ labels.map st.labels, l.Sorted (· < ·) := by
      intro l hl
      obtain ⟨lab, hlab, rfl⟩ := List.mem_map.mp hl
      exact hsorted lab hlab
    have hnil : labels.map st.labels ≠ [] := by
      intro h
      exact hne (List.map_eq_nil_iff.mp h)
    obtain ⟨hsort, hmem⟩ := combineCommon_spec (labels.map st.labels) hnil hs'
    refine ⟨hsort, fun x => ?_⟩
    rw [hmem x]
    constructor
    · intro h lab hlab
      obtain ⟨i, hi, heq⟩ := List.mem_iff_getElem.mp hlab
      have hmi : i < (labels.map st.labels).length := by
        rw [List.length_map]
        exact hi
      have hx := h i hmi
      rw [List.getD_eq_getElem _ _ hmi, List.getElem_map] at hx
      rw [← heq]
      exact hx
    · intro h i hi
      have hi' : i < labels.length := by
        rw [List.length_map] at hi
        exact hi
      rw [List.getD_eq_getElem _ _ hi, List.getElem_map]
      exact h _ (List.getElem_mem hi')

/-- Witness for C6 on a concrete store: labels "x" and "y" with index
lists `["a", "c"]` and `["b", "c"]` intersect to a list containing
exactly "c", and the empty label list returns all file IDs. -/
theorem C6_listFiltered_witness :
    ("c" ∈ ListFiltered
        ⟨["b", "a"], fun lab => if lab = "x" then ["a", "c"]
          else if lab = "y" then ["b", "c"] else []⟩ ["x", "y"] ↔
      ∀ lab ∈ ["x", "y"],
        "c" ∈ (fun lab => if lab = "x" then ["a", "c"]
          else if lab = "y" then ["b", "c"] else []) lab) ∧
    (ListFiltered
        ⟨["b", "a"], fun lab => if lab = "x" then ["a", "c"]
          else if lab = "y" then ["b", "c"] else []⟩ []).Perm ["b", "a"] := by
  constructor
  · exact ((C6_listFiltered_spec
      ⟨["b", "a"], fun lab => if lab = "x" then ["a", "c"]
        else if lab = "y" then ["b", "c"] else []⟩ ["x", "y"]
      (by intro lab hlab
          rcases List.mem_cons.mp hlab with rfl | hlab
          · simp [List.sorted_cons, String.lt_iff_toList_lt]
            decide
          · rcases List.mem_singleton.mp hlab with rfl
            simp [List.sorted_cons, String.lt_iff_toList_lt]
            decide)).2
      (by intro h; cases h)).2 "c"
  · exact ((C6_listFiltered_spec
      ⟨["b", "a"], fun lab => if lab = "x" then ["a", "c"]
        else if lab = "y" then ["b", "c"] else []⟩ []
      (by intro lab hlab; cases hlab)).1 rfl).2

end Bendo